import Mathlib

/-!
Verification development for the file-explorer-tree repository.

Shallow embedding of:
- the tree data model (src/types/fileTree.ts),
- the server-side structural hasher and debounce-expiry handler
  (src/app/api/file-tree/watch/route.ts),
- the client-side reconciler, findNodeByPath, treesEqual and the keyboard
  handler (src/app/components/FileExplorer.tsx).

Modelling conventions:
- JS strings are Lean Strings; character-level operations (toLowerCase,
  startsWith, localeCompare) are modelled on the underlying character list.
  localeCompare is modelled as code-point lexicographic comparison.
- JS stable Array.prototype.sort with a comparator is modelled as stable
  insertion sort (List.insertionSort) with the corresponding relation.
- JS Sets of paths are modelled as Finset String.
- Recursions that are not structural in the source (the stack loop of
  findNodeByPath, the recursion of treesEqual through sorted copies of the
  children) are embedded with an explicit fuel argument; the fuel passed by
  the top-level wrappers is the node count, which is proved sufficient, and
  fuel-irrelevance lemmas are provided.
-/

/-- TreeNode from src/types/fileTree.ts: discriminated union of file and
folder. A file carries extension (nullable), sizeInBytes and modifiedAt
(an ISO timestamp string); a folder carries an ordered children list. -/
inductive TreeNode where
  | file (name path : String) (extension : Option String) (sizeInBytes : Nat)
      (modifiedAt : String)
  | folder (name path : String) (children : List TreeNode)

/-- The name field common to both variants. -/
def TreeNode.name : TreeNode → String
  | .file n _ _ _ _ => n
  | .folder n _ _ => n

/-- The path field common to both variants. -/
def TreeNode.path : TreeNode → String
  | .file _ p _ _ _ => p
  | .folder _ p _ => p

/-- Whether node.type is the folder tag. -/
def TreeNode.isFolder : TreeNode → Bool
  | .file _ _ _ _ _ => false
  | .folder _ _ _ => true

/-- Children of a node; a file has none (the TS FolderNode type restricts
children access to folders). -/
def TreeNode.children : TreeNode → List TreeNode
  | .file _ _ _ _ _ => []
  | .folder _ _ cs => cs

mutual
/-- Number of nodes in a tree; used as the fuel bound for the loops that
are not structurally recursive in the source. -/
def TreeNode.count : TreeNode → Nat
  | .file _ _ _ _ _ => 1
  | .folder _ _ cs => 1 + countList cs
/-- Number of nodes in a list of trees. -/
def countList : List TreeNode → Nat
  | [] => 0
  | c :: cs => TreeNode.count c + countList cs
end

theorem TreeNode.count_pos : ∀ t : TreeNode, 1 ≤ t.count := by
  intro t
  cases t with
  | file n p e s m => simp [TreeNode.count]
  | folder n p cs => simp [TreeNode.count]

theorem count_le_countList {x : TreeNode} :
    ∀ {cs : List TreeNode}, x ∈ cs → x.count ≤ countList cs := by
  intro cs h
  induction cs with
  | nil => cases h
  | cons c cs ih =>
    rcases List.mem_cons.mp h with h1 | h2
    · subst h1; simp [countList]
    · have := ih h2
      simp [countList]
      omega

theorem countList_append (l₁ l₂ : List TreeNode) :
    countList (l₁ ++ l₂) = countList l₁ + countList l₂ := by
  induction l₁ with
  | nil => simp [countList]
  | cons c cs ih => simp [countList, ih]; omega

theorem countList_reverse (l : List TreeNode) :
    countList l.reverse = countList l := by
  induction l with
  | nil => rfl
  | cons c cs ih => simp [countList, List.reverse_cons, countList_append, ih]; omega

/-! ## JS string operations -/

/-- JS String.prototype.toLowerCase, modelled as per-character lowercasing. -/
def jsToLower (s : String) : String := String.mk (s.data.map Char.toLower)

/-- JS String.prototype.startsWith. -/
def jsStartsWith (s q : String) : Bool := q.data.isPrefixOf s.data

/-- Code-point lexicographic comparison on character lists: true iff the
first list is less than or equal to the second. -/
def charListLe : List Char → List Char → Bool
  | [], _ => true
  | _ :: _, [] => false
  | a :: as, b :: bs =>
    if a < b then true else if b < a then false else charListLe as bs

/-- Model of a.localeCompare(b) less-or-equal-zero: code-point lexicographic
order (the locale-sensitive collation of the runtime is simplified to
code-point order; the theorems below do not depend on which total order is
used here). -/
def strLe (a b : String) : Bool := charListLe a.data b.data

theorem charListLe_refl : ∀ l : List Char, charListLe l l = true := by
  intro l
  induction l with
  | nil => rfl
  | cons a as ih => simp [charListLe, ih]

theorem strLe_refl (s : String) : strLe s s = true := charListLe_refl s.data

theorem jsToLower_push (s : String) (c : Char) :
    jsToLower (s.push c) = (jsToLower s).push c.toLower := by
  simp [jsToLower, String.push]

/-! ## Structural hasher (createTreeHash, watch route) -/

/-- Shape of the objects produced by createTreeHash: path and name, plus a
children array for folders only. -/
inductive HashNode where
  | fileH (path name : String)
  | folderH (path name : String) (children : List HashNode)

mutual
/-- createTreeHash from the watch route: projects a node to its path, name
and (for folders) recursively hashed children, dropping extension,
sizeInBytes and modifiedAt. -/
def createTreeHash : TreeNode → HashNode
  | .file n p _ _ _ => .fileH p n
  | .folder n p cs => .folderH p n (hashChildren cs)
/-- node.children.map(createTreeHash). -/
def hashChildren : List TreeNode → List HashNode
  | [] => []
  | c :: cs => createTreeHash c :: hashChildren cs
end

/-- A JSON string literal (the names and paths used in this development
contain no characters that JSON.stringify would escape). -/
def quoteJson (s : String) : String := "\"" ++ s ++ "\""

mutual
/-- JSON.stringify on a hash object: object keys serialize in insertion
order (path, name, then children for folders). -/
def hashNodeJson : HashNode → String
  | .fileH p n =>
      "\x7b\"path\":" ++ quoteJson p ++ ",\"name\":" ++ quoteJson n ++ "\x7d"
  | .folderH p n cs =>
      "\x7b\"path\":" ++ quoteJson p ++ ",\"name\":" ++ quoteJson n ++
        ",\"children\":[" ++ hashListJson cs ++ "]\x7d"
/-- JSON.stringify on an array: comma-separated elements. -/
def hashListJson : List HashNode → String
  | [] => ""
  | [c] => hashNodeJson c
  | c :: cs => hashNodeJson c ++ "," ++ hashListJson cs
end

/-- The StructuralKey of the watch route: JSON.stringify(createTreeHash(tree)). -/
def treeHashString (t : TreeNode) : String := hashNodeJson (createTreeHash t)

/-! ## Spec-side structural sameness (path, name and children shape only) -/

mutual
/-- Spec-side relation: the two trees agree on path, name and recursive
children shape, and differ at most in metadata (extension, sizeInBytes,
modifiedAt). Written from the words of the spec, independently of
createTreeHash. -/
def sameShape : TreeNode → TreeNode → Bool
  | .file n p _ _ _, .file n2 p2 _ _ _ => n == n2 && p == p2
  | .folder n p cs, .folder n2 p2 cs2 => n == n2 && p == p2 && sameShapeList cs cs2
  | _, _ => false
/-- Pointwise sameShape on children lists. -/
def sameShapeList : List TreeNode → List TreeNode → Bool
  | [], [] => true
  | c :: cs, d :: ds => sameShape c d && sameShapeList cs ds
  | _, _ => false
end

theorem sameShape_hash :
    ∀ t u : TreeNode, sameShape t u = true → createTreeHash t = createTreeHash u := by
  have main : ∀ t : TreeNode,
      (∀ u, sameShape t u = true → createTreeHash t = createTreeHash u) := by
    intro t
    induction t using createTreeHash.induct (motive_2 := fun cs =>
        ∀ ds, sameShapeList cs ds = true → hashChildren cs = hashChildren ds) with
    | case1 n p e s m =>
      intro u h
      cases u with
      | file n2 p2 e2 s2 m2 =>
        simp [sameShape] at h
        simp [createTreeHash, h.1, h.2]
      | folder n2 p2 cs2 => simp [sameShape] at h
    | case2 n p cs ih =>
      intro u h
      cases u with
      | file n2 p2 e2 s2 m2 => simp [sameShape] at h
      | folder n2 p2 cs2 =>
        simp [sameShape] at h
        obtain ⟨⟨h1, h2⟩, h3⟩ := h
        simp [createTreeHash, h1, h2, ih cs2 h3]
    | case3 ds h =>
      cases ds with
      | nil => rfl
      | cons d ds => simp [sameShapeList] at h
    | case4 c cs ihc ihcs ds h =>
      cases ds with
      | nil => simp [sameShapeList] at h
      | cons d ds =>
        simp [sameShapeList] at h
        simp [hashChildren, ihc d h.1, ihcs ds h.2]
  exact main

/-! ## Spec-side: the set of paths occurring in a tree -/

mutual
/-- All paths of the nodes of a tree, the node itself included. -/
def nodePaths : TreeNode → List String
  | .file _ p _ _ _ => [p]
  | .folder _ p cs => p :: nodePathsList cs
/-- All paths of the nodes of a list of trees. -/
def nodePathsList : List TreeNode → List String
  | [] => []
  | c :: cs => nodePaths c ++ nodePathsList cs
end

theorem nodePathsList_append (l₁ l₂ : List TreeNode) :
    nodePathsList (l₁ ++ l₂) = nodePathsList l₁ ++ nodePathsList l₂ := by
  induction l₁ with
  | nil => simp [nodePathsList]
  | cons c cs ih => simp [nodePathsList, ih]

theorem mem_nodePathsList_reverse (l : List TreeNode) (p : String) :
    p ∈ nodePathsList l.reverse ↔ p ∈ nodePathsList l := by
  induction l with
  | nil => simp
  | cons c cs ih =>
    simp [nodePathsList, List.reverse_cons, nodePathsList_append, ih]
    tauto

/-! ## Watch-route debounce expiry handler -/

/-- Module-level mutable state of the watch route that the expiry handler
touches: the remembered StructuralKey of the last broadcast snapshot. -/
structure WatchState where
  lastTreeHash : Option String

/-- Result of one debounce-timer expiry: the new module state and, when the
structure changed, the snapshot sent in an update message to every client. -/
structure ExpiryResult where
  state : WatchState
  broadcast : Option TreeNode

/-- The debounce-expiry callback of setupFileWatcher, given the snapshot
just produced by readTree: serialize createTreeHash of the snapshot,
compare to lastTreeHash, skip the update when equal, otherwise remember the
new key and broadcast the snapshot. -/
def onDebounceExpiry (st : WatchState) (tree : TreeNode) : ExpiryResult :=
  let treeHash := treeHashString tree
  if some treeHash = st.lastTreeHash then ⟨st, none⟩
  else ⟨⟨some treeHash⟩, some tree⟩

theorem onDebounceExpiry_lastTreeHash (st : WatchState) (t : TreeNode) :
    (onDebounceExpiry st t).state.lastTreeHash = some (treeHashString t) := by
  show (if some (treeHashString t) = st.lastTreeHash then (⟨st, none⟩ : ExpiryResult)
        else ⟨⟨some (treeHashString t)⟩, some t⟩).state.lastTreeHash =
      some (treeHashString t)
  split
  · next h => exact h.symm
  · rfl

/-- Claim C1: if two filesystem states produce snapshots with the same
path/name/children shape (differing only in metadata such as sizeInBytes,
modifiedAt or extension), the debounce-expiry handler computes equal
StructuralKeys for them, and an expiry that sees the second snapshot right
after one that processed the first broadcasts no update message and leaves
the remembered key unchanged. -/
theorem claim_C1 (S1 S2 : TreeNode) (st0 : WatchState)
    (h : sameShape S1 S2 = true) :
    createTreeHash S1 = createTreeHash S2 ∧
    (onDebounceExpiry (onDebounceExpiry st0 S1).state S2).broadcast = none ∧
    (onDebounceExpiry (onDebounceExpiry st0 S1).state S2).state =
      (onDebounceExpiry st0 S1).state := by
  have hh : createTreeHash S1 = createTreeHash S2 := sameShape_hash S1 S2 h
  have hs : treeHashString S2 = treeHashString S1 := by
    unfold treeHashString
    rw [hh]
  have hcond : some (treeHashString S2) = (onDebounceExpiry st0 S1).state.lastTreeHash := by
    rw [onDebounceExpiry_lastTreeHash, hs]
  have hstep : onDebounceExpiry (onDebounceExpiry st0 S1).state S2 =
      ⟨(onDebounceExpiry st0 S1).state, none⟩ := by
    show (if some (treeHashString S2) = (onDebounceExpiry st0 S1).state.lastTreeHash
          then (⟨(onDebounceExpiry st0 S1).state, none⟩ : ExpiryResult)
          else ⟨⟨some (treeHashString S2)⟩, some S2⟩) = _
    rw [if_pos hcond]
  exact ⟨hh, by rw [hstep], by rw [hstep]⟩

/-- Concrete pair of snapshots differing only in metadata: sizes, modified
timestamps and the extension of a.ts differ; names, paths and shape agree. -/
def exMetaA : TreeNode :=
  .folder "generated-tree" "root"
    [.file "a.ts" "root/a.ts" (some "ts") 10 "2024-01-01T00:00:00.000Z",
     .folder "src" "root/src"
       [.file "b.md" "root/src/b.md" (some "md") 5 "2024-01-01T00:00:00.000Z"]]

/-- exMetaA after a metadata-only filesystem change. -/
def exMetaB : TreeNode :=
  .folder "generated-tree" "root"
    [.file "a.ts" "root/a.ts" none 99 "2025-06-30T12:00:00.000Z",
     .folder "src" "root/src"
       [.file "b.md" "root/src/b.md" (some "md") 7 "2025-06-30T12:00:00.000Z"]]

theorem claim_C1_witness :
    sameShape exMetaA exMetaB = true ∧
    (onDebounceExpiry (onDebounceExpiry ⟨none⟩ exMetaA).state exMetaB).broadcast =
      none :=
  ⟨by decide, (claim_C1 exMetaA exMetaB ⟨none⟩ (by decide)).2.1⟩

/-- Claim C2 (amended): the structural hash is deterministic and depends
only on the path/name/children shape of the snapshot (metadata-only
differences leave it unchanged); permutation-invariance of the key does not
hold, see the counterexample. -/
theorem claim_C2 (S S2 : TreeNode) (h : sameShape S S2 = true) :
    treeHashString S = treeHashString S ∧ treeHashString S2 = treeHashString S := by
  refine ⟨rfl, ?_⟩
  unfold treeHashString
  rw [sameShape_hash S S2 h]

theorem claim_C2_witness :
    sameShape exMetaA exMetaB = true ∧
    treeHashString exMetaB = treeHashString exMetaA :=
  ⟨by decide, (claim_C2 exMetaA exMetaB (by decide)).2⟩

/-- A file child a of the root. -/
def exFileA : TreeNode := .file "a" "root/a" none 1 "2024-01-01T00:00:00.000Z"

/-- A file child b of the root. -/
def exFileB : TreeNode := .file "b" "root/b" none 2 "2024-01-01T00:00:00.000Z"

/-- Root folder listing a before b. -/
def exOrd1 : TreeNode := .folder "generated-tree" "root" [exFileA, exFileB]

/-- Root folder listing b before a: children permuted relative to exOrd1. -/
def exOrd2 : TreeNode := .folder "generated-tree" "root" [exFileB, exFileA]

/-- Claim C2 counterexample: permuting the children of the root folder
changes the computed StructuralKey, so the key is order-sensitive and the
claimed order-independence is false. -/
theorem claim_C2_counterexample :
    (TreeNode.children exOrd2).Perm (TreeNode.children exOrd1) ∧
    treeHashString exOrd2 ≠ treeHashString exOrd1 := by
  constructor
  · show ([exFileB, exFileA] : List TreeNode).Perm [exFileA, exFileB]
    exact List.Perm.swap _ _ _
  · decide

/-! ## findNodeByPath (FileExplorer.tsx) -/

theorem path_mem_nodePaths (t : TreeNode) : t.path ∈ nodePaths t := by
  cases t with
  | file n p e s m => simp [nodePaths, TreeNode.path]
  | folder n p cs => simp [nodePaths, TreeNode.path]

/-- The stack loop of findNodeByPath. The JS code pops from the end of the
stack array and pushes a folder's children at the end; we keep the stack
reversed and pop from the head, which visits the same nodes in the same
order. The fuel bounds the number of iterations; the node count of the
stack suffices because each iteration removes one node and adds only that
node's children. -/
def findStackAux : Nat → List TreeNode → String → Option TreeNode
  | 0, _, _ => none
  | _ + 1, [], _ => none
  | fuel + 1, c :: rest, p =>
    if c.path = p then some c
    else
      match c with
      | .folder _ _ cs => findStackAux fuel (cs.reverse ++ rest) p
      | .file _ _ _ _ _ => findStackAux fuel rest p

theorem findStackAux_isSome :
    ∀ (fuel : Nat) (stack : List TreeNode) (p : String), countList stack ≤ fuel →
      (((findStackAux fuel stack p).isSome = true) ↔ p ∈ nodePathsList stack) := by
  intro fuel
  induction fuel with
  | zero =>
    intro stack p h
    cases stack with
    | nil => simp [findStackAux, nodePathsList]
    | cons c rest =>
      exfalso
      have := TreeNode.count_pos c
      simp [countList] at h
      omega
  | succ fuel ih =>
    intro stack p h
    cases stack with
    | nil => simp [findStackAux, nodePathsList]
    | cons c rest =>
      by_cases hp : c.path = p
      · simp only [findStackAux, if_pos hp, Option.isSome_some]
        simp only [nodePathsList, List.mem_append]
        exact iff_of_true trivial (Or.inl (hp ▸ path_mem_nodePaths c))
      · simp only [findStackAux, if_neg hp]
        cases c with
        | folder n q cs =>
          have hc : countList (cs.reverse ++ rest) ≤ fuel := by
            have h2 : countList (TreeNode.folder n q cs :: rest) =
                1 + (countList cs + countList rest) := by
              simp [countList, TreeNode.count, Nat.add_assoc]
            rw [countList_append, countList_reverse]
            omega
          rw [ih (cs.reverse ++ rest) p hc]
          have hq : ¬ (p = q) := fun e => hp (by simp [TreeNode.path, e])
          simp [nodePathsList, nodePaths, nodePathsList_append,
            mem_nodePathsList_reverse, hq]
        | file n q e s m =>
          have hc : countList rest ≤ fuel := by
            simp [countList, TreeNode.count] at h
            omega
          rw [ih rest p hc]
          have hq : ¬ (p = q) := fun e => hp (by simp [TreeNode.path, e])
          simp [nodePathsList, nodePaths, hq]

/-- findNodeByPath from FileExplorer.tsx: null checks, a root-path check,
then an explicit depth-first stack search over the children. -/
def findNodeByPath (root : Option TreeNode) (path : Option String) : Option TreeNode :=
  match root, path with
  | some r, some p =>
    if r.path = p then some r
    else findStackAux (countList r.children.reverse) r.children.reverse p
  | _, _ => none

theorem findNodeByPath_eq_ite (t : TreeNode) (p : String) :
    findNodeByPath (some t) (some p) =
      if t.path = p then some t
      else findStackAux (countList t.children.reverse) t.children.reverse p := rfl

theorem findNodeByPath_isSome (t : TreeNode) (p : String) :
    ((findNodeByPath (some t) (some p)).isSome = true) ↔ p ∈ nodePaths t := by
  rw [findNodeByPath_eq_ite]
  by_cases hp : t.path = p
  · simp only [if_pos hp, Option.isSome_some]
    exact iff_of_true trivial (hp ▸ path_mem_nodePaths t)
  · rw [if_neg hp]
    rw [findStackAux_isSome _ _ _ le_rfl]
    cases t with
    | file n q e s m =>
      have hq : ¬ (p = q) := fun e => hp (by simp [TreeNode.path, e])
      simp [TreeNode.children, nodePathsList, nodePaths, hq]
    | folder n q cs =>
      have hq : ¬ (p = q) := fun e => hp (by simp [TreeNode.path, e])
      simp [TreeNode.children, mem_nodePathsList_reverse, nodePaths, hq]

/-- The expansion-pruning step of the SSE update handler: keep the
previously expanded paths that findNodeByPath still finds in the new tree,
then re-add root. -/
def pruneExpanded (prev : Finset String) (newTree : TreeNode) : Finset String :=
  insert "root"
    (prev.filter (fun p => (findNodeByPath (some newTree) (some p)).isSome = true))

/-! ## treesEqual (FileExplorer.tsx) -/

/-- The comparator (x, y) => x.path.localeCompare(y.path) of treesEqual, as
a relation: x sorts no later than y. -/
def pathLeRel (x y : TreeNode) : Prop := strLe x.path y.path = true

instance : DecidableRel pathLeRel := fun x y =>
  instDecidableEqBool (strLe x.path y.path) true

/-- The copied-and-sorted children list [...children].sort(comparator):
JS sort is stable and a stable sort by a fixed comparator has a unique
result, so stable insertion sort computes the same list. -/
def sortByPath (l : List TreeNode) : List TreeNode := List.insertionSort pathLeRel l

theorem mem_sortByPath {x : TreeNode} {l : List TreeNode} (h : x ∈ sortByPath l) :
    x ∈ l := (List.mem_insertionSort pathLeRel).mp h

/-- treesEqual with explicit fuel. Each recursive call of the source goes
through a sorted copy of the children, which is not a structural subterm,
so the recursion depth is bounded by a fuel argument instead; the node
count of the first tree is enough fuel (see treesEqualAux_congr). -/
def treesEqualAux : Nat → TreeNode → TreeNode → Bool
  | 0, _, _ => false
  | fuel + 1, TreeNode.folder an ap acs, TreeNode.folder bn bp bcs =>
      ap == bp && an == bn && acs.length == bcs.length &&
        ((sortByPath acs).zip (sortByPath bcs)).all fun pr =>
          pr.1.path == pr.2.path && pr.1.name == pr.2.name &&
            (match pr.1, pr.2 with
             | TreeNode.folder _ _ _, TreeNode.folder _ _ _ => treesEqualAux fuel pr.1 pr.2
             | _, _ => true)
  | _ + 1, _, _ => false

/-- treesEqual from FileExplorer.tsx: compares path, name and child count,
sorts both children lists by path, compares the sorted lists pairwise by
path and name, and recurses only into pairs in which both children are
folders. The TS signature restricts both arguments to FolderNode; on a
file argument the embedded function returns false (that case is
unreachable at the call sites). -/
def treesEqual (a b : TreeNode) : Bool := treesEqualAux a.count a b

theorem list_all_congr {α : Type} {p q : α → Bool} :
    ∀ l : List α, (∀ x ∈ l, p x = q x) → l.all p = l.all q := by
  intro l h
  induction l with
  | nil => rfl
  | cons x xs ih =>
    simp only [List.all_cons]
    rw [h x (List.mem_cons_self x xs), ih (fun z hz => h z (List.mem_cons_of_mem x hz))]

theorem treesEqualAux_congr :
    ∀ (fuel fuel2 : Nat) (a b : TreeNode), a.count ≤ fuel → a.count ≤ fuel2 →
      treesEqualAux fuel a b = treesEqualAux fuel2 a b := by
  intro fuel
  induction fuel with
  | zero =>
    intro fuel2 a b h1 _
    exact absurd h1 (by have := TreeNode.count_pos a; omega)
  | succ fuel ih =>
    intro fuel2 a b h1 h2
    cases fuel2 with
    | zero => exact absurd h2 (by have := TreeNode.count_pos a; omega)
    | succ fuel2 =>
      cases a with
      | file n p e s m => cases b <;> rfl
      | folder an ap acs =>
        cases b with
        | file n2 p2 e2 s2 m2 => rfl
        | folder bn bp bcs =>
          simp only [treesEqualAux]
          congr 1
          apply list_all_congr
          intro pr hpr
          have hx : pr.1 ∈ sortByPath acs := (List.of_mem_zip hpr).1
          have hcx : pr.1.count ≤ countList acs := count_le_countList (mem_sortByPath hx)
          have hbound : countList acs ≤ fuel ∧ countList acs ≤ fuel2 := by
            simp [TreeNode.count] at h1 h2
            omega
          congr 1
          obtain ⟨x, y⟩ := pr
          cases x with
          | file _ _ _ _ _ => cases y <;> rfl
          | folder _ _ _ =>
            cases y with
            | file _ _ _ _ _ => rfl
            | folder _ _ _ =>
              exact ih fuel2 _ _ (le_trans hcx hbound.1) (le_trans hcx hbound.2)

theorem list_zip_self {α : Type} (l : List α) : l.zip l = l.map (fun x => (x, x)) := by
  induction l with
  | nil => rfl
  | cons x xs ih => simp [List.zip_cons_cons, ih]

theorem treesEqualAux_refl :
    ∀ (fuel : Nat) (t : TreeNode), t.isFolder = true → t.count ≤ fuel →
      treesEqualAux fuel t t = true := by
  intro fuel
  induction fuel with
  | zero =>
    intro t _ h
    exact absurd h (by have := TreeNode.count_pos t; omega)
  | succ fuel ih =>
    intro t hf h
    cases t with
    | file _ _ _ _ _ => simp [TreeNode.isFolder] at hf
    | folder n p cs =>
      simp only [treesEqualAux, beq_self_eq_true, Bool.true_and, List.all_eq_true]
      intro pr hpr
      rw [list_zip_self, List.mem_map] at hpr
      obtain ⟨x, hx, hxpr⟩ := hpr
      subst hxpr
      have hcx : x.count ≤ countList cs := count_le_countList (mem_sortByPath hx)
      have hfuel : x.count ≤ fuel := by
        simp [TreeNode.count] at h
        omega
      cases x with
      | file _ _ _ _ _ => simp
      | folder _ _ _ =>
        simp only [beq_self_eq_true, Bool.true_and]
        exact ih _ rfl hfuel

theorem treesEqual_refl (t : TreeNode) (h : t.isFolder = true) :
    treesEqual t t = true := treesEqualAux_refl t.count t h le_rfl

/-! ## Spec-side canonical structural key (for claim C3) -/

/-- Path component of a structural key. -/
def HashNode.pathOf : HashNode → String
  | .fileH p _ => p
  | .folderH p _ _ => p

/-- Keys ordered by their path component. -/
def keyLeRel (u v : HashNode) : Prop := strLe u.pathOf v.pathOf = true

instance : DecidableRel keyLeRel := fun u v =>
  instDecidableEqBool (strLe u.pathOf v.pathOf) true

mutual
/-- Spec-side canonical StructuralKey of a node: its path, its name, and
the recursively computed keys of its children sorted by path. Two trees
have equal canonical keys exactly when every node at the same path has the
same name and every folder has the same path-sorted collection of child
keys; written from the words of the spec, independently of treesEqual. -/
def canonKey : TreeNode → HashNode
  | .file n p _ _ _ => .fileH p n
  | .folder n p cs => .folderH p n (List.insertionSort keyLeRel (canonKeyList cs))
/-- Canonical keys of a children list, in stored order. -/
def canonKeyList : List TreeNode → List HashNode
  | [] => []
  | c :: cs => canonKey c :: canonKeyList cs
end

theorem canonKeyList_eq_map : ∀ l : List TreeNode, canonKeyList l = l.map canonKey := by
  intro l
  induction l with
  | nil => rfl
  | cons c cs ih => simp [canonKeyList, ih]

theorem canonKey_pathOf (t : TreeNode) : (canonKey t).pathOf = t.path := by
  cases t <;> rfl

theorem canonKey_parts {x y : TreeNode} (h : canonKey x = canonKey y) :
    x.path = y.path ∧ x.name = y.name ∧ x.isFolder = y.isFolder := by
  cases x with
  | file n p e s m =>
    cases y with
    | file n2 p2 e2 s2 m2 =>
      simp only [canonKey, HashNode.fileH.injEq] at h
      simp [TreeNode.path, TreeNode.name, TreeNode.isFolder, h.1, h.2]
    | folder n2 p2 cs2 => simp [canonKey] at h
  | folder n p cs =>
    cases y with
    | file n2 p2 e2 s2 m2 => simp [canonKey] at h
    | folder n2 p2 cs2 =>
      simp only [canonKey, HashNode.folderH.injEq] at h
      simp [TreeNode.path, TreeNode.name, TreeNode.isFolder, h.1, h.2.1]

theorem sortByPath_map_canonKey (l : List TreeNode) :
    (sortByPath l).map canonKey = List.insertionSort keyLeRel (canonKeyList l) := by
  rw [canonKeyList_eq_map]
  exact List.map_insertionSort pathLeRel keyLeRel canonKey l
    (fun a _ b _ => by
      unfold pathLeRel keyLeRel
      rw [canonKey_pathOf, canonKey_pathOf])

theorem canonKey_treesEqualAux :
    ∀ (n : Nat) (a b : TreeNode), a.count ≤ n → a.isFolder = true →
      canonKey a = canonKey b → ∀ fuel, a.count ≤ fuel →
        treesEqualAux fuel a b = true := by
  intro n
  induction n with
  | zero =>
    intro a b hn _ _ _ _
    exact absurd hn (by have := TreeNode.count_pos a; omega)
  | succ n ih =>
    intro a b hn hf hk fuel hfuel
    cases a with
    | file _ _ _ _ _ => simp [TreeNode.isFolder] at hf
    | folder an ap acs =>
      cases b with
      | file bn bp e s m => exact absurd hk (by simp [canonKey])
      | folder bn bp bcs =>
        simp only [canonKey, HashNode.folderH.injEq] at hk
        obtain ⟨hpp, hnn, hss⟩ := hk
        cases fuel with
        | zero => exact absurd hfuel (by have := TreeNode.count_pos (TreeNode.folder an ap acs); omega)
        | succ fuel =>
          have hcount : countList acs ≤ n ∧ countList acs ≤ fuel := by
            simp [TreeNode.count] at hn hfuel
            omega
          have hlen : acs.length = bcs.length := by
            have h1 : (List.insertionSort keyLeRel (canonKeyList acs)).length = acs.length := by
              rw [List.length_insertionSort, canonKeyList_eq_map, List.length_map]
            have h2 : (List.insertionSort keyLeRel (canonKeyList bcs)).length = bcs.length := by
              rw [List.length_insertionSort, canonKeyList_eq_map, List.length_map]
            rw [← h1, ← h2, hss]
          have hmap : (sortByPath acs).map canonKey = (sortByPath bcs).map canonKey := by
            rw [sortByPath_map_canonKey, sortByPath_map_canonKey, hss]
          subst hpp
          subst hnn
          simp only [treesEqualAux, beq_self_eq_true, Bool.true_and, hlen,
            Bool.and_eq_true, List.all_eq_true]
          have hboundall : ∀ x ∈ sortByPath acs, x.count ≤ n ∧ x.count ≤ fuel := by
            intro x hx
            have := count_le_countList (mem_sortByPath hx)
            exact ⟨le_trans this hcount.1, le_trans this hcount.2⟩
          clear hlen hss hn hfuel hcount
          generalize hys : sortByPath bcs = ys at hmap
          generalize hxs : sortByPath acs = xs at hmap hboundall
          clear hxs hys
          induction xs generalizing ys with
          | nil => intro pr hpr; simp [List.zip_nil_left] at hpr
          | cons x xs ihx =>
            cases ys with
            | nil => intro pr hpr; simp at hpr
            | cons y ys =>
              simp only [List.map_cons, List.cons.injEq] at hmap
              obtain ⟨hxy, hrest⟩ := hmap
              intro pr hpr
              rw [List.zip_cons_cons, List.mem_cons] at hpr
              rcases hpr with hpr | hpr
              · subst hpr
                obtain ⟨hp1, hn1, hfo⟩ := canonKey_parts hxy
                refine ⟨⟨by simp [hp1], by simp [hn1]⟩, ?_⟩
                have hbx := hboundall x (List.mem_cons_self x xs)
                cases x with
                | file _ _ _ _ _ =>
                  cases y with
                  | file _ _ _ _ _ => rfl
                  | folder _ _ _ => simp [TreeNode.isFolder] at hfo
                | folder _ _ _ =>
                  cases y with
                  | file _ _ _ _ _ => simp [TreeNode.isFolder] at hfo
                  | folder _ _ _ =>
                    exact ih _ _ hbx.1 rfl hxy fuel hbx.2
              · exact ihx ys hrest
                  (fun z hz => hboundall z (List.mem_cons_of_mem x hz)) pr hpr

/-- Claim C3 (amended): the client-side structural equality check returns
true whenever the two trees have equal canonical structural keys, that is,
whenever every node at the same path has the same name and every folder
has the same path-sorted collection of child structural keys. The converse
direction of the original claim fails: treesEqual does not return false
when a node at a given path is a file in one tree and a folder in the
other (see the counterexample). -/
theorem claim_C3 (a b : TreeNode) (ha : a.isFolder = true)
    (h : canonKey a = canonKey b) : treesEqual a b = true :=
  canonKey_treesEqualAux a.count a b le_rfl ha h a.count le_rfl

theorem claim_C3_witness :
    canonKey exOrd2 = canonKey exOrd1 ∧ treesEqual exOrd2 exOrd1 = true :=
  ⟨by rfl, claim_C3 exOrd2 exOrd1 (by rfl) (by rfl)⟩

/-- Root whose child at path root/x is a file. -/
def exTreeFileX : TreeNode :=
  .folder "generated-tree" "root" [.file "x" "root/x" none 1 "2024-01-01T00:00:00.000Z"]

/-- Root whose child at path root/x is a folder with its own subtree. -/
def exTreeFolderX : TreeNode :=
  .folder "generated-tree" "root"
    [.folder "x" "root/x" [.file "y" "root/x/y" none 2 "2024-01-01T00:00:00.000Z"]]

/-- Claim C3 counterexample: the node at path root/x is a file in one tree
and a folder (with a non-empty subtree) in the other, yet treesEqual
returns true, contradicting the claimed if-and-only-if characterization. -/
theorem claim_C3_counterexample :
    treesEqual exTreeFileX exTreeFolderX = true ∧
    (findNodeByPath (some exTreeFileX) (some "root/x")).map TreeNode.isFolder =
      some false ∧
    (findNodeByPath (some exTreeFolderX) (some "root/x")).map TreeNode.isFolder =
      some true := by
  refine ⟨?_, ?_, ?_⟩ <;> decide

/-! ## Client reconciler: the SSE update handler -/

/-- The pieces of FileExplorer state the SSE update handler touches. The
lastUpdateTime is abstracted to a Nat timestamp (the code formats the
current wall-clock time to a string). -/
structure ClientState where
  tree : Option TreeNode
  expanded : Finset String
  selectedPath : Option String
  lastUpdateTime : Option Nat

/-- The data.type = update branch of the SSE onmessage handler: adopt the
snapshot outright when there is no current tree; discard it when
treesEqual holds against the current tree; otherwise prune the expansion
set, keep the selected path (the code keeps it even when the node was
deleted), replace the tree and bump the timestamp. -/
def applyUpdate (st : ClientState) (now : Nat) (newTree : TreeNode) : ClientState :=
  match st.tree with
  | none => { st with tree := some newTree, lastUpdateTime := some now }
  | some prevTree =>
    if treesEqual prevTree newTree then st
    else
      { tree := some newTree
        expanded := pruneExpanded st.expanded newTree
        selectedPath := st.selectedPath
        lastUpdateTime := some now }

/-- Claim C6: when a structurally different snapshot is applied, the
reconciled ExpansionSet is exactly the set of previously expanded paths
that still exist in the new tree, plus root. -/
theorem claim_C6 (st : ClientState) (now : Nat) (newTree prev : TreeNode)
    (htree : st.tree = some prev) (hdiff : treesEqual prev newTree = false) :
    ∀ q : String, q ∈ (applyUpdate st now newTree).expanded ↔
      q = "root" ∨ (q ∈ st.expanded ∧ q ∈ nodePaths newTree) := by
  intro q
  have hres : (applyUpdate st now newTree).expanded = pruneExpanded st.expanded newTree := by
    simp [applyUpdate, htree, hdiff]
  rw [hres]
  simp only [pruneExpanded, Finset.mem_insert, Finset.mem_filter]
  constructor
  · rintro (h | ⟨h1, h2⟩)
    · exact Or.inl h
    · exact Or.inr ⟨h1, (findNodeByPath_isSome newTree q).mp h2⟩
  · rintro (h | ⟨h1, h2⟩)
    · exact Or.inl h
    · exact Or.inr ⟨h1, (findNodeByPath_isSome newTree q).mpr h2⟩

/-- Old client tree containing the folder root/a. -/
def exTreeOld : TreeNode := .folder "generated-tree" "root" [.folder "a" "root/a" []]

/-- New snapshot in which root/a no longer exists. -/
def exTreeNew : TreeNode :=
  .folder "generated-tree" "root" [.file "b" "root/b" none 1 "2024-01-01T00:00:00.000Z"]

theorem claim_C6_witness :
    (∀ q : String,
        q ∈ (applyUpdate ⟨some exTreeOld, {"root", "root/a"}, none, none⟩ 1 exTreeNew).expanded ↔
          q = "root" ∨
            (q ∈ ({"root", "root/a"} : Finset String) ∧ q ∈ nodePaths exTreeNew)) ∧
    (applyUpdate ⟨some exTreeOld, {"root", "root/a"}, none, none⟩ 1 exTreeNew).expanded =
      {"root"} :=
  ⟨claim_C6 ⟨some exTreeOld, {"root", "root/a"}, none, none⟩ 1 exTreeNew exTreeOld rfl
      (by decide),
    by decide⟩

/-- Claim C7: applying the same snapshot to the reconciler twice in a row
yields the same tree, ExpansionSet and SelectionState as applying it once;
the second application hits the treesEqual branch and is a no-op. -/
theorem claim_C7 (st : ClientState) (now1 now2 : Nat) (S : TreeNode)
    (hS : S.isFolder = true) :
    (applyUpdate (applyUpdate st now1 S) now2 S).tree = (applyUpdate st now1 S).tree ∧
    (applyUpdate (applyUpdate st now1 S) now2 S).expanded =
      (applyUpdate st now1 S).expanded ∧
    (applyUpdate (applyUpdate st now1 S) now2 S).selectedPath =
      (applyUpdate st now1 S).selectedPath := by
  have hrefl : treesEqual S S = true := treesEqual_refl S hS
  rcases hst : st.tree with _ | prev
  · have h1 : applyUpdate st now1 S = { st with tree := some S, lastUpdateTime := some now1 } := by
      simp [applyUpdate, hst]
    have h2 : applyUpdate { st with tree := some S, lastUpdateTime := some now1 } now2 S =
        { st with tree := some S, lastUpdateTime := some now1 } := by
      simp [applyUpdate, hrefl]
    rw [h1, h2]
    exact ⟨rfl, rfl, rfl⟩
  · by_cases he : treesEqual prev S = true
    · have h1 : applyUpdate st now1 S = st := by simp [applyUpdate, hst, he]
      rw [h1]
      have h2 : applyUpdate st now2 S = st := by simp [applyUpdate, hst, he]
      rw [h2]
      exact ⟨rfl, rfl, rfl⟩
    · have h1 : applyUpdate st now1 S =
          { tree := some S
            expanded := pruneExpanded st.expanded S
            selectedPath := st.selectedPath
            lastUpdateTime := some now1 } := by
        simp [applyUpdate, hst, he]
      have h2 : applyUpdate
          { tree := some S
            expanded := pruneExpanded st.expanded S
            selectedPath := st.selectedPath
            lastUpdateTime := some now1 } now2 S =
          { tree := some S
            expanded := pruneExpanded st.expanded S
            selectedPath := st.selectedPath
            lastUpdateTime := some now1 } := by
        simp [applyUpdate, hrefl]
      rw [h1, h2]
      exact ⟨rfl, rfl, rfl⟩

theorem claim_C7_witness :
    (applyUpdate (applyUpdate ⟨none, {"root"}, none, none⟩ 1 exOrd1) 2 exOrd1).tree =
      (applyUpdate ⟨none, {"root"}, none, none⟩ 1 exOrd1).tree ∧
    (applyUpdate (applyUpdate ⟨none, {"root"}, none, none⟩ 1 exOrd1) 2 exOrd1).expanded =
      (applyUpdate ⟨none, {"root"}, none, none⟩ 1 exOrd1).expanded ∧
    (applyUpdate (applyUpdate ⟨none, {"root"}, none, none⟩ 1 exOrd1) 2 exOrd1).selectedPath =
      (applyUpdate ⟨none, {"root"}, none, none⟩ 1 exOrd1).selectedPath :=
  claim_C7 ⟨none, {"root"}, none, none⟩ 1 2 exOrd1 (by rfl)

/-! ## Keyboard navigator (handleKeyDown, FileExplorer.tsx) -/

/-- A row of the Visible-Set: a node plus its depth, as produced by
flattenTree. -/
structure VisibleNode where
  node : TreeNode
  depth : Nat

/-- Default row used to embed JS array indexing that is always in bounds at
the places the handler indexes. -/
def defaultRow : VisibleNode := ⟨TreeNode.file "" "" none 0 "", 0⟩

/-- The navigator state handleKeyDown reads and writes: the selected path,
the expansion set, and the accumulated type-ahead query. The 400 ms timer
that clears the query is real time and not modelled; the claims concern
the immediate effect of a single keystroke. -/
structure NavState where
  selectedPath : Option String
  expanded : Finset String
  typeahead : String

/-- The four arrow keys. -/
inductive ArrowKey where
  | up
  | down
  | left
  | right

/-- A keyboard event as handleKeyDown distinguishes them: an arrow key; a
single printable character together with its modifier flags; or any other
key (multi-character key values such as Enter or Shift), which the handler
ignores. -/
inductive KeyEvent where
  | arrow (k : ArrowKey)
  | char (c : Char) (ctrlKey metaKey altKey : Bool)
  | otherKey

/-- JS findIndex: index of the first matching element, or -1. -/
def findIndexPath (p : String) : List VisibleNode → Int
  | [] => -1
  | v :: vs =>
    if v.node.path = p then 0
    else
      let r := findIndexPath p vs
      if r < 0 then -1 else r + 1

/-- The expression selectedPath ? visibleNodes.findIndex(item =>
item.node.path === selectedPath) : -1 of handleKeyDown. -/
def jsFindIndexPath (visible : List VisibleNode) (sel : Option String) : Int :=
  match sel with
  | none => -1
  | some p => findIndexPath p visible

/-- handleKeyDown from FileExplorer.tsx. Arrow branch: no-op on an empty
Visible-Set, index of the selected row normalized to 0 when there is no
match, cyclic up/down movement, expand/collapse on right/left over the
current row when it is a folder. Character branch: ignored when a modifier
is held; otherwise the lowercased query is extended and the first matching
row in the rotated Visible-Set (rows after the selection, then rows up to
and including it) is selected, the selection staying put when nothing
matches. -/
def handleKeyDown (visible : List VisibleNode) (st : NavState) (ev : KeyEvent) :
    NavState :=
  match ev with
  | .arrow k =>
    if visible.length = 0 then st
    else
      let currentIndex : Int := jsFindIndexPath visible st.selectedPath
      let normalizedIndex : Nat := if 0 ≤ currentIndex then currentIndex.toNat else 0
      match k with
      | .up =>
        let prevIndex :=
          if 0 < normalizedIndex then normalizedIndex - 1 else visible.length - 1
        { st with selectedPath := some ((visible.getD prevIndex defaultRow).node.path) }
      | .down =>
        let nextIndex :=
          if normalizedIndex < visible.length - 1 then normalizedIndex + 1 else 0
        { st with selectedPath := some ((visible.getD nextIndex defaultRow).node.path) }
      | .right =>
        match visible.get? normalizedIndex with
        | some cur =>
          if cur.node.isFolder = true then
            if cur.node.path ∉ st.expanded then
              { st with expanded := insert cur.node.path st.expanded }
            else st
          else st
        | none => st
      | .left =>
        match visible.get? normalizedIndex with
        | some cur =>
          if cur.node.isFolder = true then
            if cur.node.path ∈ st.expanded then
              { st with expanded := st.expanded.erase cur.node.path }
            else st
          else st
        | none => st
  | .char c ctrl meta alt =>
    if ctrl || meta || alt then st
    else
      let nextQuery := jsToLower (st.typeahead.push c)
      let startIndex : Int := jsFindIndexPath visible st.selectedPath
      let ordered :=
        visible.drop (startIndex + 1).toNat ++ visible.take (startIndex + 1).toNat
      match ordered.find? (fun it => jsStartsWith (jsToLower it.node.name) nextQuery) with
      | some it => { st with selectedPath := some it.node.path, typeahead := nextQuery }
      | none => { st with typeahead := nextQuery }
  | .otherKey => st

theorem findIndexPath_eq :
    ∀ (visible : List VisibleNode) (i : Nat) (p : String),
      (visible.map (fun v => v.node.path)).Nodup →
      i < visible.length → (visible.getD i defaultRow).node.path = p →
      findIndexPath p visible = (i : Int) := by
  intro visible
  induction visible with
  | nil =>
    intro i p _ hi _
    simp at hi
  | cons v vs ih =>
    intro i p hnodup hi hrow
    cases i with
    | zero =>
      rw [List.getD_cons_zero] at hrow
      simp [findIndexPath, hrow]
    | succ i =>
      rw [List.getD_cons_succ] at hrow
      simp only [List.map_cons, List.nodup_cons] at hnodup
      have hi2 : i < vs.length := by simpa using hi
      have hvs : findIndexPath p vs = (i : Int) := ih i p hnodup.2 hi2 hrow
      have hvp : ¬ (v.node.path = p) := by
        intro he
        apply hnodup.1
        have hmem : vs.getD i defaultRow ∈ vs := by
          rw [List.getD_eq_getElem vs defaultRow hi2]
          exact List.getElem_mem hi2
        have hp : p ∈ vs.map (fun w => w.node.path) := by
          rw [← hrow]
          exact List.mem_map_of_mem _ hmem
        rw [he]
        exact hp
      simp only [findIndexPath, if_neg hvp, hvs]
      have hneg : ¬ ((i : Int) < 0) := by omega
      rw [if_neg hneg]
      omega

theorem rotation_eq_map_range (visible : List VisibleNode) (i : Nat)
    (hi : i < visible.length) :
    visible.drop (i + 1) ++ visible.take (i + 1) =
      (List.range visible.length).map
        (fun k => visible.getD ((i + 1 + k) % visible.length) defaultRow) := by
  apply List.ext_getElem?
  intro k
  rcases lt_or_ge k visible.length with hk | hk
  · rw [List.getElem?_map, List.getElem?_range hk]
    rcases lt_or_ge k (visible.length - (i + 1)) with hk2 | hk2
    · have lhs1 : (visible.drop (i + 1) ++ visible.take (i + 1))[k]? =
          visible[i + 1 + k]? := by
        rw [List.getElem?_append_left (by rw [List.length_drop]; omega),
          List.getElem?_drop]
      have hmod : (i + 1 + k) % visible.length = i + 1 + k :=
        Nat.mod_eq_of_lt (by omega)
      rw [lhs1, List.getElem?_eq_getElem (by omega : i + 1 + k < visible.length)]
      simp only [Option.map_some', hmod]
      rw [List.getD_eq_getElem visible defaultRow (by omega)]
    · have lhs1 : (visible.drop (i + 1) ++ visible.take (i + 1))[k]? =
          visible[k - (visible.length - (i + 1))]? := by
        rw [List.getElem?_append_right (by rw [List.length_drop]; omega),
          List.length_drop, List.getElem?_take, if_pos (by omega)]
      have hmod : (i + 1 + k) % visible.length = k - (visible.length - (i + 1)) := by
        have h1 : i + 1 + k = visible.length + (k - (visible.length - (i + 1))) := by
          omega
        rw [h1, Nat.add_mod_left, Nat.mod_eq_of_lt (by omega)]
      rw [lhs1,
        List.getElem?_eq_getElem (by omega : k - (visible.length - (i + 1)) < visible.length)]
      simp only [Option.map_some', hmod]
      rw [List.getD_eq_getElem visible defaultRow (by omega)]
  · have h1 : (visible.drop (i + 1) ++ visible.take (i + 1)).length ≤ k := by
      rw [List.length_append, List.length_drop, List.length_take]
      omega
    have h2 : ((List.range visible.length).map
        (fun k => visible.getD ((i + 1 + k) % visible.length) defaultRow)).length ≤ k := by
      rw [List.length_map, List.length_range]
      omega
    rw [List.getElem?_eq_none h1, List.getElem?_eq_none h2]

/-- The first cyclic offset k (0 ≤ k < n, denoting the row at position
(i + 1 + k) mod n) at which a visible row name starts with the query:
the scan order of the spec, forward from the row after the current
selection, wrapping past the end, up to and including the selected row. -/
def cyclicMatchIndex (visible : List VisibleNode) (i : Nat) (q : String) : Option Nat :=
  (List.range visible.length).find? (fun k =>
    jsStartsWith
      (jsToLower ((visible.getD ((i + 1 + k) % visible.length) defaultRow).node.name)) q)

theorem handleKeyDown_char_eq (visible : List VisibleNode) (st : NavState) (c : Char)
    (sel : String) (i : Nat)
    (hnodup : (visible.map (fun v => v.node.path)).Nodup)
    (hi : i < visible.length)
    (hsel : st.selectedPath = some sel)
    (hrow : (visible.getD i defaultRow).node.path = sel) :
    handleKeyDown visible st (.char c false false false) =
      match cyclicMatchIndex visible i (jsToLower (st.typeahead.push c)) with
      | some k =>
        { st with
            selectedPath :=
              some ((visible.getD ((i + 1 + k) % visible.length) defaultRow).node.path)
            typeahead := jsToLower (st.typeahead.push c) }
      | none => { st with typeahead := jsToLower (st.typeahead.push c) } := by
  have hidx : jsFindIndexPath visible st.selectedPath = (i : Int) := by
    rw [hsel]
    exact findIndexPath_eq visible i sel hnodup hi hrow
  show (match (visible.drop ((jsFindIndexPath visible st.selectedPath + 1).toNat) ++
            visible.take ((jsFindIndexPath visible st.selectedPath + 1).toNat)).find?
          (fun it => jsStartsWith (jsToLower it.node.name) (jsToLower (st.typeahead.push c))) with
        | some it =>
          { st with
              selectedPath := some it.node.path
              typeahead := jsToLower (st.typeahead.push c) }
        | none => { st with typeahead := jsToLower (st.typeahead.push c) }) = _
  rw [hidx]
  have hcast : ((i : Int) + 1).toNat = i + 1 := by omega
  rw [hcast]
  have hlhs : (visible.drop (i + 1) ++ visible.take (i + 1)).find?
      (fun it => jsStartsWith (jsToLower it.node.name) (jsToLower (st.typeahead.push c))) =
    Option.map (fun k => visible.getD ((i + 1 + k) % visible.length) defaultRow)
      (cyclicMatchIndex visible i (jsToLower (st.typeahead.push c))) := by
    rw [rotation_eq_map_range visible i hi, List.find?_map]
    rfl
  rw [hlhs]
  rcases hfind : cyclicMatchIndex visible i (jsToLower (st.typeahead.push c)) with _ | k <;>
    simp

/-- Claim C4: on a printable keystroke without modifiers, with a selected
row present in the Visible-Set, the handler appends the lowercased
character to the (lowercase) accumulated query, leaves the expansion set
unchanged, and selects the first row whose name starts case-insensitively
with the accumulated query, scanning forward from the row after the
current selection, wrapping past the end, up to and including the current
selection; when no row matches, the selection is unchanged and the query
is kept. -/
theorem claim_C4 (visible : List VisibleNode) (st : NavState) (c : Char)
    (sel : String) (i : Nat)
    (hlow : jsToLower st.typeahead = st.typeahead)
    (hnodup : (visible.map (fun v => v.node.path)).Nodup)
    (hi : i < visible.length)
    (hsel : st.selectedPath = some sel)
    (hrow : (visible.getD i defaultRow).node.path = sel) :
    (handleKeyDown visible st (.char c false false false)).typeahead =
      st.typeahead.push c.toLower ∧
    (handleKeyDown visible st (.char c false false false)).expanded = st.expanded ∧
    (match cyclicMatchIndex visible i (st.typeahead.push c.toLower) with
     | some k =>
        (handleKeyDown visible st (.char c false false false)).selectedPath =
          some ((visible.getD ((i + 1 + k) % visible.length) defaultRow).node.path)
     | none =>
        (handleKeyDown visible st (.char c false false false)).selectedPath =
          st.selectedPath) := by
  have hq : jsToLower (st.typeahead.push c) = st.typeahead.push c.toLower := by
    rw [jsToLower_push, hlow]
  rw [handleKeyDown_char_eq visible st c sel i hnodup hi hsel hrow, hq]
  rcases h : cyclicMatchIndex visible i (st.typeahead.push c.toLower) with _ | k
  · simp [hsel]
  · simp

/-- The four rows a, b, c, d of the wraparound example of the spec. -/
def exVisFour : List VisibleNode :=
  [⟨.file "a" "root/a" none 1 "t", 1⟩, ⟨.file "b" "root/b" none 1 "t", 1⟩,
   ⟨.file "c" "root/c" none 1 "t", 1⟩, ⟨.file "d" "root/d" none 1 "t", 1⟩]

theorem claim_C4_witness :
    (handleKeyDown exVisFour ⟨some "root/c", {"root"}, ""⟩
        (.char 'a' false false false)).typeahead = ("" : String).push 'a'.toLower ∧
    (handleKeyDown exVisFour ⟨some "root/c", {"root"}, ""⟩
        (.char 'a' false false false)).expanded =
      (⟨some "root/c", {"root"}, ""⟩ : NavState).expanded ∧
    (match cyclicMatchIndex exVisFour 2 (("" : String).push 'a'.toLower) with
     | some k =>
        (handleKeyDown exVisFour ⟨some "root/c", {"root"}, ""⟩
            (.char 'a' false false false)).selectedPath =
          some ((exVisFour.getD ((2 + 1 + k) % exVisFour.length) defaultRow).node.path)
     | none =>
        (handleKeyDown exVisFour ⟨some "root/c", {"root"}, ""⟩
            (.char 'a' false false false)).selectedPath =
          (⟨some "root/c", {"root"}, ""⟩ : NavState).selectedPath) :=
  claim_C4 exVisFour ⟨some "root/c", {"root"}, ""⟩ 'a' "root/c" 2
    (by decide) (by decide) (by decide) rfl (by decide)

theorem handleKeyDown_down_eq (visible : List VisibleNode) (st : NavState)
    (sel : String) (i : Nat)
    (hnodup : (visible.map (fun v => v.node.path)).Nodup)
    (hi : i < visible.length)
    (hsel : st.selectedPath = some sel)
    (hrow : (visible.getD i defaultRow).node.path = sel) :
    handleKeyDown visible st (.arrow .down) =
      { st with
          selectedPath :=
            some ((visible.getD (if i < visible.length - 1 then i + 1 else 0)
              defaultRow).node.path) } := by
  have hidx : jsFindIndexPath visible st.selectedPath = (i : Int) := by
    rw [hsel]
    exact findIndexPath_eq visible i sel hnodup hi hrow
  have hne : ¬ (visible.length = 0) := by omega
  show (if visible.length = 0 then st
        else
          { st with
              selectedPath :=
                some ((visible.getD
                  (if (if 0 ≤ jsFindIndexPath visible st.selectedPath then
                        (jsFindIndexPath visible st.selectedPath).toNat else 0) <
                      visible.length - 1 then
                    (if 0 ≤ jsFindIndexPath visible st.selectedPath then
                      (jsFindIndexPath visible st.selectedPath).toNat else 0) + 1
                  else 0) defaultRow).node.path) }) = _
  rw [if_neg hne, hidx, if_pos (by omega : (0 : Int) ≤ (i : Int)),
    (by omega : ((i : Int)).toNat = i)]

theorem handleKeyDown_up_eq (visible : List VisibleNode) (st : NavState)
    (sel : String) (i : Nat)
    (hnodup : (visible.map (fun v => v.node.path)).Nodup)
    (hi : i < visible.length)
    (hsel : st.selectedPath = some sel)
    (hrow : (visible.getD i defaultRow).node.path = sel) :
    handleKeyDown visible st (.arrow .up) =
      { st with
          selectedPath :=
            some ((visible.getD (if 0 < i then i - 1 else visible.length - 1)
              defaultRow).node.path) } := by
  have hidx : jsFindIndexPath visible st.selectedPath = (i : Int) := by
    rw [hsel]
    exact findIndexPath_eq visible i sel hnodup hi hrow
  have hne : ¬ (visible.length = 0) := by omega
  show (if visible.length = 0 then st
        else
          { st with
              selectedPath :=
                some ((visible.getD
                  (if 0 < (if 0 ≤ jsFindIndexPath visible st.selectedPath then
                        (jsFindIndexPath visible st.selectedPath).toNat else 0) then
                    (if 0 ≤ jsFindIndexPath visible st.selectedPath then
                      (jsFindIndexPath visible st.selectedPath).toNat else 0) - 1
                  else visible.length - 1) defaultRow).node.path) }) = _
  rw [if_neg hne, hidx, if_pos (by omega : (0 : Int) ≤ (i : Int)),
    (by omega : ((i : Int)).toNat = i)]

/-- Claim C5: with a selected row in a non-empty Visible-Set, ArrowDown
moves the selection to the next row and ArrowUp to the previous row,
wrapping cyclically at the ends, with no other state change; on an empty
Visible-Set the arrow keys change nothing. -/
theorem claim_C5 (visible : List VisibleNode) (st : NavState)
    (sel : String) (i : Nat)
    (hnodup : (visible.map (fun v => v.node.path)).Nodup)
    (hi : i < visible.length)
    (hsel : st.selectedPath = some sel)
    (hrow : (visible.getD i defaultRow).node.path = sel) :
    handleKeyDown visible st (.arrow .down) =
      { st with
          selectedPath :=
            some ((visible.getD ((i + 1) % visible.length) defaultRow).node.path) } ∧
    handleKeyDown visible st (.arrow .up) =
      { st with
          selectedPath :=
            some ((visible.getD ((i + visible.length - 1) % visible.length)
              defaultRow).node.path) } ∧
    ∀ (st2 : NavState) (k : ArrowKey), handleKeyDown [] st2 (.arrow k) = st2 := by
  refine ⟨?_, ?_, ?_⟩
  · rw [handleKeyDown_down_eq visible st sel i hnodup hi hsel hrow]
    have hmod : (i + 1) % visible.length = if i < visible.length - 1 then i + 1 else 0 := by
      rcases lt_or_ge i (visible.length - 1) with h | h
      · rw [if_pos h, Nat.mod_eq_of_lt (by omega)]
      · rw [if_neg (by omega), (by omega : i + 1 = visible.length), Nat.mod_self]
    rw [hmod]
  · rw [handleKeyDown_up_eq visible st sel i hnodup hi hsel hrow]
    have hmod : (i + visible.length - 1) % visible.length =
        if 0 < i then i - 1 else visible.length - 1 := by
      rcases Nat.eq_zero_or_pos i with h | h
      · rw [if_neg (by omega), h, Nat.zero_add, Nat.mod_eq_of_lt (by omega)]
      · rw [if_pos h, (by omega : i + visible.length - 1 = visible.length + (i - 1)),
          Nat.add_mod_left, Nat.mod_eq_of_lt (by omega)]
    rw [hmod]
  · intro st2 k
    cases k <;> rfl

theorem claim_C5_witness :
    handleKeyDown exVisFour ⟨some "root/d", {"root"}, ""⟩ (.arrow .down) =
      { (⟨some "root/d", {"root"}, ""⟩ : NavState) with
          selectedPath :=
            some ((exVisFour.getD ((3 + 1) % exVisFour.length) defaultRow).node.path) } ∧
    handleKeyDown exVisFour ⟨some "root/d", {"root"}, ""⟩ (.arrow .up) =
      { (⟨some "root/d", {"root"}, ""⟩ : NavState) with
          selectedPath :=
            some ((exVisFour.getD ((3 + exVisFour.length - 1) % exVisFour.length)
              defaultRow).node.path) } ∧
    ∀ (st2 : NavState) (k : ArrowKey), handleKeyDown [] st2 (.arrow k) = st2 :=
  claim_C5 exVisFour ⟨some "root/d", {"root"}, ""⟩ "root/d" 3
    (by decide) (by decide) rfl (by decide)

theorem handleKeyDown_right_eq (visible : List VisibleNode) (st : NavState)
    (sel : String) (i : Nat)
    (hnodup : (visible.map (fun v => v.node.path)).Nodup)
    (hi : i < visible.length)
    (hsel : st.selectedPath = some sel)
    (hrow : (visible.getD i defaultRow).node.path = sel) :
    handleKeyDown visible st (.arrow .right) =
      (if (visible.getD i defaultRow).node.isFolder = true then
        (if (visible.getD i defaultRow).node.path ∉ st.expanded then
          { st with
              expanded := insert (visible.getD i defaultRow).node.path st.expanded }
        else st)
      else st) := by
  have hidx : jsFindIndexPath visible st.selectedPath = (i : Int) := by
    rw [hsel]
    exact findIndexPath_eq visible i sel hnodup hi hrow
  have hne : ¬ (visible.length = 0) := by omega
  have hcur : visible.get? i = some (visible.getD i defaultRow) := by
    rw [List.get?_eq_getElem?, List.getElem?_eq_getElem hi,
      List.getD_eq_getElem visible defaultRow hi]
  show (if visible.length = 0 then st
        else
          match visible.get?
              (if 0 ≤ jsFindIndexPath visible st.selectedPath then
                (jsFindIndexPath visible st.selectedPath).toNat else 0) with
          | some cur =>
            if cur.node.isFolder = true then
              if cur.node.path ∉ st.expanded then
                { st with expanded := insert cur.node.path st.expanded }
              else st
            else st
          | none => st) = _
  rw [if_neg hne, hidx, if_pos (by omega : (0 : Int) ≤ (i : Int)),
    (by omega : ((i : Int)).toNat = i), hcur]

theorem handleKeyDown_left_eq (visible : List VisibleNode) (st : NavState)
    (sel : String) (i : Nat)
    (hnodup : (visible.map (fun v => v.node.path)).Nodup)
    (hi : i < visible.length)
    (hsel : st.selectedPath = some sel)
    (hrow : (visible.getD i defaultRow).node.path = sel) :
    handleKeyDown visible st (.arrow .left) =
      (if (visible.getD i defaultRow).node.isFolder = true then
        (if (visible.getD i defaultRow).node.path ∈ st.expanded then
          { st with expanded := st.expanded.erase (visible.getD i defaultRow).node.path }
        else st)
      else st) := by
  have hidx : jsFindIndexPath visible st.selectedPath = (i : Int) := by
    rw [hsel]
    exact findIndexPath_eq visible i sel hnodup hi hrow
  have hne : ¬ (visible.length = 0) := by omega
  have hcur : visible.get? i = some (visible.getD i defaultRow) := by
    rw [List.get?_eq_getElem?, List.getElem?_eq_getElem hi,
      List.getD_eq_getElem visible defaultRow hi]
  show (if visible.length = 0 then st
        else
          match visible.get?
              (if 0 ≤ jsFindIndexPath visible st.selectedPath then
                (jsFindIndexPath visible st.selectedPath).toNat else 0) with
          | some cur =>
            if cur.node.isFolder = true then
              if cur.node.path ∈ st.expanded then
                { st with expanded := st.expanded.erase cur.node.path }
              else st
            else st
          | none => st) = _
  rw [if_neg hne, hidx, if_pos (by omega : (0 : Int) ≤ (i : Int)),
    (by omega : ((i : Int)).toNat = i), hcur]

/-- Claim C9: over the selected row, ArrowRight on a collapsed folder only
inserts that folder's path into the expansion set; ArrowRight on an
expanded folder or a file changes nothing; ArrowLeft on an expanded folder
only removes its path; ArrowLeft is otherwise a no-op. In each case all
state other than the expansion set (selection, query) is unchanged. -/
theorem claim_C9 (visible : List VisibleNode) (st : NavState)
    (sel : String) (i : Nat)
    (hnodup : (visible.map (fun v => v.node.path)).Nodup)
    (hi : i < visible.length)
    (hsel : st.selectedPath = some sel)
    (hrow : (visible.getD i defaultRow).node.path = sel) :
    ((visible.getD i defaultRow).node.isFolder = true →
      (visible.getD i defaultRow).node.path ∉ st.expanded →
      handleKeyDown visible st (.arrow .right) =
        { st with expanded := insert (visible.getD i defaultRow).node.path st.expanded }) ∧
    ((visible.getD i defaultRow).node.isFolder = true →
      (visible.getD i defaultRow).node.path ∈ st.expanded →
      handleKeyDown visible st (.arrow .right) = st) ∧
    ((visible.getD i defaultRow).node.isFolder = false →
      handleKeyDown visible st (.arrow .right) = st) ∧
    ((visible.getD i defaultRow).node.isFolder = true →
      (visible.getD i defaultRow).node.path ∈ st.expanded →
      handleKeyDown visible st (.arrow .left) =
        { st with expanded := st.expanded.erase (visible.getD i defaultRow).node.path }) ∧
    ((visible.getD i defaultRow).node.isFolder = true →
      (visible.getD i defaultRow).node.path ∉ st.expanded →
      handleKeyDown visible st (.arrow .left) = st) ∧
    ((visible.getD i defaultRow).node.isFolder = false →
      handleKeyDown visible st (.arrow .left) = st) := by
  rw [handleKeyDown_right_eq visible st sel i hnodup hi hsel hrow,
    handleKeyDown_left_eq visible st sel i hnodup hi hsel hrow]
  refine ⟨?_, ?_, ?_, ?_, ?_, ?_⟩
  · intro hf hm
    rw [if_pos hf, if_pos hm]
  · intro hf hm
    rw [if_pos hf, if_neg (by simpa using hm)]
  · intro hf
    have hft : ¬ ((visible.getD i defaultRow).node.isFolder = true) := by
      rw [hf]
      simp
    rw [if_neg hft]
  · intro hf hm
    rw [if_pos hf, if_pos hm]
  · intro hf hm
    rw [if_pos hf, if_neg hm]
  · intro hf
    have hft : ¬ ((visible.getD i defaultRow).node.isFolder = true) := by
      rw [hf]
      simp
    rw [if_neg hft]

/-- Visible rows for the C9 witness: the expanded root, a collapsed folder
src, and a file. -/
def exVisMix : List VisibleNode :=
  [⟨TreeNode.folder "generated-tree" "root"
      [TreeNode.folder "src" "root/src" [], exFileA], 0⟩,
   ⟨TreeNode.folder "src" "root/src" [], 1⟩,
   ⟨exFileA, 1⟩]

theorem claim_C9_witness :
    ((exVisMix.getD 1 defaultRow).node.isFolder = true →
      (exVisMix.getD 1 defaultRow).node.path ∉
        (⟨some "root/src", {"root"}, ""⟩ : NavState).expanded →
      handleKeyDown exVisMix ⟨some "root/src", {"root"}, ""⟩ (.arrow .right) =
        { (⟨some "root/src", {"root"}, ""⟩ : NavState) with
            expanded := insert (exVisMix.getD 1 defaultRow).node.path
              (⟨some "root/src", {"root"}, ""⟩ : NavState).expanded }) ∧
    ((exVisMix.getD 1 defaultRow).node.isFolder = true →
      (exVisMix.getD 1 defaultRow).node.path ∈
        (⟨some "root/src", {"root"}, ""⟩ : NavState).expanded →
      handleKeyDown exVisMix ⟨some "root/src", {"root"}, ""⟩ (.arrow .right) =
        ⟨some "root/src", {"root"}, ""⟩) ∧
    ((exVisMix.getD 1 defaultRow).node.isFolder = false →
      handleKeyDown exVisMix ⟨some "root/src", {"root"}, ""⟩ (.arrow .right) =
        ⟨some "root/src", {"root"}, ""⟩) ∧
    ((exVisMix.getD 1 defaultRow).node.isFolder = true →
      (exVisMix.getD 1 defaultRow).node.path ∈
        (⟨some "root/src", {"root"}, ""⟩ : NavState).expanded →
      handleKeyDown exVisMix ⟨some "root/src", {"root"}, ""⟩ (.arrow .left) =
        { (⟨some "root/src", {"root"}, ""⟩ : NavState) with
            expanded := (⟨some "root/src", {"root"}, ""⟩ : NavState).expanded.erase
              (exVisMix.getD 1 defaultRow).node.path }) ∧
    ((exVisMix.getD 1 defaultRow).node.isFolder = true →
      (exVisMix.getD 1 defaultRow).node.path ∉
        (⟨some "root/src", {"root"}, ""⟩ : NavState).expanded →
      handleKeyDown exVisMix ⟨some "root/src", {"root"}, ""⟩ (.arrow .left) =
        ⟨some "root/src", {"root"}, ""⟩) ∧
    ((exVisMix.getD 1 defaultRow).node.isFolder = false →
      handleKeyDown exVisMix ⟨some "root/src", {"root"}, ""⟩ (.arrow .left) =
        ⟨some "root/src", {"root"}, ""⟩) :=
  claim_C9 exVisMix ⟨some "root/src", {"root"}, ""⟩ "root/src" 1
    (by decide) (by decide) rfl (by decide)

/-- A Visible-Set with exactly one row (an empty root folder). -/
def exVisOne : List VisibleNode := [⟨TreeNode.folder "generated-tree" "root" [], 0⟩]

/-- Claim C10 counterexample: with no selection and exactly one visible
row, the first ArrowDown selects the row at index 0 (the first and only
row), not the row at index 1 claimed for every non-empty Visible-Set;
there is no index 1 since only one row is visible. -/
theorem claim_C10_counterexample :
    (handleKeyDown exVisOne ⟨none, {"root"}, ""⟩ (.arrow .down)).selectedPath =
      some "root" ∧ exVisOne.length = 1 := by
  refine ⟨?_, ?_⟩ <;> decide

/-- Claim C10 (amended): with no current selection and a non-empty
Visible-Set, the missing selection is normalized to index 0, so the first
ArrowUp selects the last visible row, and the first ArrowDown selects the
row at index 1 when at least two rows are visible, but with exactly one
visible row it selects that single row (index 0). -/
theorem claim_C10 (visible : List VisibleNode) (st : NavState)
    (hne : visible.length ≠ 0) (hsel : st.selectedPath = none) :
    handleKeyDown visible st (.arrow .up) =
      { st with
          selectedPath :=
            some ((visible.getD (visible.length - 1) defaultRow).node.path) } ∧
    (2 ≤ visible.length →
      handleKeyDown visible st (.arrow .down) =
        { st with selectedPath := some ((visible.getD 1 defaultRow).node.path) }) ∧
    (visible.length = 1 →
      handleKeyDown visible st (.arrow .down) =
        { st with selectedPath := some ((visible.getD 0 defaultRow).node.path) }) := by
  have hidx : jsFindIndexPath visible st.selectedPath = -1 := by
    rw [hsel]
    rfl
  refine ⟨?_, ?_, ?_⟩
  · show (if visible.length = 0 then st
        else
          { st with
              selectedPath :=
                some ((visible.getD
                  (if 0 < (if 0 ≤ jsFindIndexPath visible st.selectedPath then
                        (jsFindIndexPath visible st.selectedPath).toNat else 0) then
                    (if 0 ≤ jsFindIndexPath visible st.selectedPath then
                      (jsFindIndexPath visible st.selectedPath).toNat else 0) - 1
                  else visible.length - 1) defaultRow).node.path) }) = _
    rw [if_neg hne, hidx, if_neg (by omega : ¬ ((0 : Int) ≤ -1)),
      if_neg (by omega : ¬ ((0 : Nat) < 0))]
  · intro h2
    show (if visible.length = 0 then st
        else
          { st with
              selectedPath :=
                some ((visible.getD
                  (if (if 0 ≤ jsFindIndexPath visible st.selectedPath then
                        (jsFindIndexPath visible st.selectedPath).toNat else 0) <
                      visible.length - 1 then
                    (if 0 ≤ jsFindIndexPath visible st.selectedPath then
                      (jsFindIndexPath visible st.selectedPath).toNat else 0) + 1
                  else 0) defaultRow).node.path) }) = _
    rw [if_neg hne, hidx, if_neg (by omega : ¬ ((0 : Int) ≤ -1)),
      if_pos (by omega : 0 < visible.length - 1)]
  · intro h1
    show (if visible.length = 0 then st
        else
          { st with
              selectedPath :=
                some ((visible.getD
                  (if (if 0 ≤ jsFindIndexPath visible st.selectedPath then
                        (jsFindIndexPath visible st.selectedPath).toNat else 0) <
                      visible.length - 1 then
                    (if 0 ≤ jsFindIndexPath visible st.selectedPath then
                      (jsFindIndexPath visible st.selectedPath).toNat else 0) + 1
                  else 0) defaultRow).node.path) }) = _
    rw [if_neg hne, hidx, if_neg (by omega : ¬ ((0 : Int) ≤ -1)),
      if_neg (by omega : ¬ (0 < visible.length - 1))]

theorem claim_C10_witness :
    handleKeyDown exVisFour ⟨none, {"root"}, ""⟩ (.arrow .up) =
      { (⟨none, {"root"}, ""⟩ : NavState) with
          selectedPath :=
            some ((exVisFour.getD (exVisFour.length - 1) defaultRow).node.path) } ∧
    (2 ≤ exVisFour.length →
      handleKeyDown exVisFour ⟨none, {"root"}, ""⟩ (.arrow .down) =
        { (⟨none, {"root"}, ""⟩ : NavState) with
            selectedPath := some ((exVisFour.getD 1 defaultRow).node.path) }) ∧
    (exVisFour.length = 1 →
      handleKeyDown exVisFour ⟨none, {"root"}, ""⟩ (.arrow .down) =
        { (⟨none, {"root"}, ""⟩ : NavState) with
            selectedPath := some ((exVisFour.getD 0 defaultRow).node.path) }) :=
  claim_C10 exVisFour ⟨none, {"root"}, ""⟩ (by decide) rfl
